import Mathlib

set_option maxHeartbeats 1000000

/- Shallow embedding of the hi-tension crate (src/lib.rs).

   A byte is a Nat below 256; an f64 value is represented by its 64-bit
   IEEE-754 bit pattern, a Nat below 2^64 (the code only ever moves the
   raw bit patterns, never performs floating-point arithmetic).

   A duplex stream is modelled by the list of bytes still available to
   be read (pending) and the list of bytes written so far (written).
   A physical read may deliver fewer bytes than requested: each read k
   delivers min (f k) (min requested available) bytes, where f is the
   delivery schedule of the stream; an empty pending list models a
   stream that has reached end-of-data (reads return 0 bytes, as Rust
   Read does at EOF).  A physical write may likewise accept fewer bytes
   than offered, governed by an acceptance schedule. -/

structure HiStream where
  pending : List Nat
  written : List Nat
  deriving DecidableEq

/- const DELIMITER_NAN: [u8; 8] (src/lib.rs line 69). -/
def DELIMITER_NAN : List Nat := [0x5b, 0xa0, 0x00, 0x04, 0x10, 0x00, 0xf8, 0x7f]

/- const DEFAULT_SIZE: usize = 100_000_000 (src/lib.rs line 70). -/
def DEFAULT_SIZE : Nat := 100000000

/- The sentinel bit pattern 0x7ff800100400a05b. -/
def SENTINEL : Nat := 0x7ff800100400a05b

/- Little-endian byte representation of one 64-bit word: this is the
   in-memory representation that as_u8_slice exposes for one f64. -/
def toLEBytes (v : Nat) : List Nat :=
  [v % 256, v / 256 % 256, v / 65536 % 256, v / 16777216 % 256,
   v / 4294967296 % 256, v / 1099511627776 % 256,
   v / 281474976710656 % 256, v / 72057594037927936 % 256]

def fromLEBytes8 (b0 b1 b2 b3 b4 b5 b6 b7 : Nat) : Nat :=
  b0 + 256 * (b1 + 256 * (b2 + 256 * (b3 + 256 * (b4 + 256 * (b5 + 256 * (b6 + 256 * b7))))))

/- Reinterpret a byte buffer as consecutive 64-bit words (the inverse
   view of as_u8_slice_mut: the Vec<f64> whose byte view the buffer is). -/
def bytesToF64s : List Nat → List Nat
  | b0 :: b1 :: b2 :: b3 :: b4 :: b5 :: b6 :: b7 :: rest =>
      fromLEBytes8 b0 b1 b2 b3 b4 b5 b6 b7 :: bytesToF64s rest
  | _ => []

theorem fromLEBytes8_toLEBytes (v : Nat) (h : v < 18446744073709551616) :
    bytesToF64s (toLEBytes v) = [v] := by
  simp only [toLEBytes, bytesToF64s, fromLEBytes8]
  congr 1
  omega

theorem toLEBytes_eq_delimiter (v : Nat) (h : v < 18446744073709551616)
    (he : toLEBytes v = DELIMITER_NAN) : v = SENTINEL := by
  simp only [toLEBytes, DELIMITER_NAN, List.cons.injEq, and_true] at he
  simp only [SENTINEL]
  omega

theorem length_toLEBytes (v : Nat) : (toLEBytes v).length = 8 := by
  simp [toLEBytes]

theorem bytesToF64s_flatMap (data : List Nat)
    (h : ∀ v ∈ data, v < 18446744073709551616) :
    bytesToF64s (data.flatMap toLEBytes) = data := by
  induction data with
  | nil => rfl
  | cons v rest ih =>
      have hv : v < 18446744073709551616 := h v (List.mem_cons_self v rest)
      have hr : ∀ w ∈ rest, w < 18446744073709551616 :=
        fun w hw => h w (List.mem_cons_of_mem v hw)
      simp only [List.flatMap_cons, toLEBytes, List.cons_append, List.nil_append]
      simp only [bytesToF64s]
      have := fromLEBytes8_toLEBytes v hv
      simp only [toLEBytes, bytesToF64s, List.cons.injEq] at this
      rw [this.1, ih hr]

theorem length_flatMap_toLEBytes (data : List Nat) :
    (data.flatMap toLEBytes).length = 8 * data.length := by
  induction data with
  | nil => rfl
  | cons v rest ih =>
      simp only [List.flatMap_cons, List.length_append, length_toLEBytes, ih,
        List.length_cons]
      ring

/- State of hiread's loop (src/lib.rs lines 103-127): k counts physical
   reads (index into the delivery schedule), i is the byte cursor, size
   the buffer capacity in f64 elements (capacity in bytes is size * 8,
   hence always a multiple of 8), buf the byte view of the buffer, s
   the stream. -/

structure RState where
  k : Nat
  i : Nat
  size : Nat
  buf : List Nat
  s : HiStream
  deriving DecidableEq

/- lines 109-113: if i == size * 8 { size *= 2; buf.resize(size, 0.0); }
   Vec::resize preserves the existing elements and appends zeros. -/
def grow (st : RState) : RState :=
  if st.i = st.size * 8 then
    ⟨st.k, st.i, st.size * 2, st.buf ++ List.replicate (st.size * 8) 0, st.s⟩
  else st

/- Number of bytes delivered by the next physical read
   stream.read(&mut buf_view[i..]) under delivery schedule f: at most
   what the schedule offers, at most the requested free tail of the
   buffer, at most what the stream still has (0 once at end-of-data). -/
def readAmt (f : Nat → Nat) (st : RState) : Nat :=
  min (f st.k) (min (st.size * 8 - st.i) st.s.pending.length)

/- line 115: i += stream.read(&mut buf_view[i..])? — d delivered bytes
   are stored at offsets i..i+d of the buffer and consumed from the
   stream, and the cursor advances by d. -/
def fill (st : RState) (d : Nat) : RState :=
  ⟨st.k, st.i + d, st.size,
   st.buf.take st.i ++ st.s.pending.take d ++ st.buf.drop (st.i + d),
   ⟨st.s.pending.drop d, st.s.written⟩⟩

inductive HiReadOut where
  /- the sentinel comparison buf_view[i - 8..i] with i < 8: usize
     underflow, the program panics. -/
  | panic : HiReadOut
  /- normal return Ok(buf) after writing the acknowledgment byte. -/
  | ok : List Nat → HiStream → HiReadOut
  deriving DecidableEq

/- One iteration of hiread's loop (lines 108-123): optional capacity
   doubling, one physical read, then the sentinel comparison
   buf_view[i - 8..i] == DELIMITER_NAN; on a match the code writes the
   single acknowledgment byte b"\n" (= 10), flushes, and returns the
   first i / 8 - 1 elements of the buffer (lines 117-126). -/
def checkStep (st2 : RState) : Sum HiReadOut RState :=
  if st2.i < 8 then Sum.inl HiReadOut.panic
  else if (st2.buf.drop (st2.i - 8)).take 8 = DELIMITER_NAN then
    Sum.inl (HiReadOut.ok (bytesToF64s (st2.buf.take (8 * (st2.i / 8 - 1))))
      ⟨st2.s.pending, st2.s.written ++ [10]⟩)
  else Sum.inr ⟨st2.k + 1, st2.i, st2.size, st2.buf, st2.s⟩

def hireadStep (f : Nat → Nat) (st0 : RState) : Sum HiReadOut RState :=
  checkStep (fill (grow st0) (readAmt f (grow st0)))

/- hiread's loop, with fuel: none means the loop has not terminated
   within fuel iterations (the Rust loop has no other exit than the
   sentinel match or a panic, so a state on which every fuel returns
   none is a diverging run). -/
def hireadLoop (f : Nat → Nat) : Nat → RState → Option HiReadOut
  | 0, _ => none
  | fuel + 1, st =>
      match hireadStep f st with
      | Sum.inl out => some out
      | Sum.inr st2 => hireadLoop f fuel st2

/- hiread with the initial capacity as a parameter: the source fixes it
   to DEFAULT_SIZE (line 105), hiread below is exactly that instance. -/
def hireadAux (f : Nat → Nat) (fuel size0 : Nat) (s : HiStream) : Option HiReadOut :=
  hireadLoop f fuel ⟨0, 0, size0, List.replicate (size0 * 8) 0, s⟩

/- pub fn hiread (src/lib.rs lines 103-127). -/
def hiread (f : Nat → Nat) (fuel : Nat) (s : HiStream) : Option HiReadOut :=
  hireadAux f fuel DEFAULT_SIZE s

/- hiwrite's loop (lines 161-168): i += stream.write(&slice[i..])?,
   break once i == slice.len().  g is the stream's acceptance schedule:
   write k accepts min (g k) (offered) bytes. -/
def hiwriteLoop (g : Nat → Nat) : Nat → Nat → Nat → List Nat → HiStream → Option HiStream
  | 0, _, _, _, _ => none
  | fuel + 1, k, i, slice, s =>
      let d := min (g k) (slice.length - i)
      let s2 : HiStream := ⟨s.pending, s.written ++ (slice.drop i).take d⟩
      if i + d = slice.length then some s2
      else hiwriteLoop g fuel (k + 1) (i + d) slice s2

/- pub fn hiwrite (src/lib.rs lines 159-170): the slice written is the
   little-endian byte view of the data (as_u8_slice). -/
def hiwrite (g : Nat → Nat) (fuel : Nat) (data : List Nat) (s : HiStream) : Option HiStream :=
  hiwriteLoop g fuel 0 0 (data.flatMap toLEBytes) s

inductive HiDelimOut where
  | ok : HiStream → HiDelimOut
  /- read_exact on a stream at end-of-data: Err(UnexpectedEof). -/
  | eofError : HiDelimOut
  deriving DecidableEq

/- pub fn hidelimiter (src/lib.rs lines 195-199):
   stream.write(&DELIMITER_NAN)? — a SINGLE physical write whose byte
   count is not checked (a short write is not resumed), the stream
   accepting a bytes; then flush; then read_exact of one byte. -/
def hidelimiter (a : Nat) (s : HiStream) : HiDelimOut :=
  match s.pending with
  | [] => HiDelimOut.eofError
  | _ :: rest =>
      HiDelimOut.ok ⟨rest, s.written ++ DELIMITER_NAN.take (min a DELIMITER_NAN.length)⟩

/- ------------------------------------------------------------------
   Helper lemmas about grow, fill and the sentinel window.
   ------------------------------------------------------------------ -/

theorem dvd_min_of_dvd (c a b : Nat) (ha : c ∣ a) (hb : c ∣ b) : c ∣ min a b := by
  rcases Nat.le_total a b with h | h
  · rwa [Nat.min_eq_left h]
  · rwa [Nat.min_eq_right h]

theorem window_eq_of_take_eq (b1 b2 : List Nat) (i : Nat) (h8 : 8 ≤ i)
    (h : b1.take i = b2.take i) :
    (b1.drop (i - 8)).take 8 = (b2.drop (i - 8)).take 8 := by
  have e1 : (b1.take i).drop (i - 8) = (b1.drop (i - 8)).take 8 := by
    rw [List.drop_take]
    congr 1
    omega
  have e2 : (b2.take i).drop (i - 8) = (b2.drop (i - 8)).take 8 := by
    rw [List.drop_take]
    congr 1
    omega
  rw [← e1, ← e2, h]

theorem grow_spec (st : RState)
    (h1 : st.buf.length = st.size * 8) (h2 : 1 ≤ st.size) (h3 : st.i ≤ st.size * 8) :
    (grow st).k = st.k ∧ (grow st).i = st.i ∧ (grow st).s = st.s ∧
    (grow st).buf.length = (grow st).size * 8 ∧ 1 ≤ (grow st).size ∧
    st.i < (grow st).size * 8 ∧
    (grow st).buf.take st.i = st.buf.take st.i := by
  unfold grow
  by_cases hc : st.i = st.size * 8
  · rw [if_pos hc]
    refine ⟨rfl, rfl, rfl, ?_, ?_, ?_, ?_⟩
    · show (st.buf ++ List.replicate (st.size * 8) 0).length = st.size * 2 * 8
      simp only [List.length_append, List.length_replicate, h1]
      ring
    · show 1 ≤ st.size * 2
      omega
    · show st.i < st.size * 2 * 8
      omega
    · show (st.buf ++ List.replicate (st.size * 8) 0).take st.i = st.buf.take st.i
      rw [List.take_append_of_le_length (by omega)]
  · rw [if_neg hc]
    exact ⟨rfl, rfl, rfl, h1, h2, by omega, rfl⟩

theorem fill_spec (W : List Nat) (st : RState) (d : Nat)
    (hpend : st.s.pending = W.drop st.i)
    (hbuf : st.buf.take st.i = W.take st.i)
    (hib : st.i ≤ st.buf.length)
    (hd : st.i + d ≤ W.length)
    (hdb : st.i + d ≤ st.buf.length) :
    (fill st d).i = st.i + d ∧ (fill st d).k = st.k ∧ (fill st d).size = st.size ∧
    (fill st d).buf.length = st.buf.length ∧
    (fill st d).s.pending = W.drop (st.i + d) ∧
    (fill st d).s.written = st.s.written ∧
    (fill st d).buf.take (st.i + d) = W.take (st.i + d) := by
  have hlen1 : (st.buf.take st.i).length = st.i := by
    rw [List.length_take]
    omega
  have hlen2 : (st.s.pending.take d).length = d := by
    rw [hpend, List.length_take, List.length_drop]
    omega
  have hlen12 : (st.buf.take st.i ++ st.s.pending.take d).length = st.i + d := by
    rw [List.length_append, hlen1, hlen2]
  refine ⟨rfl, rfl, rfl, ?_, ?_, rfl, ?_⟩
  · show (st.buf.take st.i ++ st.s.pending.take d ++ st.buf.drop (st.i + d)).length
        = st.buf.length
    simp only [List.length_append, hlen1, hlen2, List.length_drop]
    omega
  · show (st.s.pending.drop d) = W.drop (st.i + d)
    rw [hpend, List.drop_drop]
  · show (st.buf.take st.i ++ st.s.pending.take d ++ st.buf.drop (st.i + d)).take (st.i + d)
        = W.take (st.i + d)
    rw [List.take_append_eq_append_take, hlen12, Nat.sub_self, List.take_zero,
        List.append_nil, List.take_of_length_le (le_of_eq hlen12)]
    rw [hbuf, hpend]
    have he : (W.drop st.i).take d = (W.drop st.i).take (st.i + d - st.i) := by
      congr 1
      omega
    rw [he, ← List.take_add]
    congr 1
    omega

/- ------------------------------------------------------------------
   The wire of one logical message: a byte sequence whose 8-byte
   aligned chunks are all distinct from the sentinel except the last,
   which is exactly the sentinel.
   ------------------------------------------------------------------ -/

def chunkAt (W : List Nat) (j : Nat) : List Nat := (W.drop (8 * j)).take 8

def WireOK (W : List Nat) : Prop :=
  8 ∣ W.length ∧ 8 ≤ W.length ∧
  (∀ j, 8 * j + 8 < W.length → chunkAt W j ≠ DELIMITER_NAN) ∧
  chunkAt W (W.length / 8 - 1) = DELIMITER_NAN

/- Delivery schedules under which every physical read hands over at
   least one whole word and only whole words (8-byte aligned amounts). -/
def SchedOK (f : Nat → Nat) : Prop := ∀ k, 8 ≤ f k ∧ 8 ∣ f k

/- Loop invariant of hiread while the sentinel has not been reached:
   the buffer holds the first i wire bytes, the stream still holds the
   rest, the capacity is size * 8 bytes and the cursor is aligned. -/
def ReadInv (W : List Nat) (st : RState) : Prop :=
  st.buf.length = st.size * 8 ∧ 1 ≤ st.size ∧ 8 ∣ st.i ∧ st.i ≤ st.size * 8 ∧
  st.i < W.length ∧ st.s.pending = W.drop st.i ∧ st.buf.take st.i = W.take st.i

theorem hireadStep_spec (W : List Nat) (f : Nat → Nat) (st : RState)
    (hw : WireOK W) (hf : SchedOK f) (hinv : ReadInv W st) :
    hireadStep f st = Sum.inl (HiReadOut.ok (bytesToF64s (W.take (W.length - 8)))
        ⟨[], st.s.written ++ [10]⟩) ∨
    (∃ st2, hireadStep f st = Sum.inr st2 ∧ ReadInv W st2 ∧
      st2.s.written = st.s.written ∧ st.i + 8 ≤ st2.i) := by
  obtain ⟨hwd, hwl, hwmid, hwend⟩ := hw
  obtain ⟨hb, hs1, hdi, hile, hiW, hpend, htake⟩ := hinv
  obtain ⟨gk, gi, gs, gb, gs1, gilt, gtake⟩ := grow_spec st hb hs1 hile
  set st1 := grow st with hst1
  set d := readAmt f st1 with hd
  have hfk := hf st1.k
  have hq : st1.s.pending.length = W.length - st.i := by
    rw [gs, hpend, List.length_drop]
  have hdey : d = min (f st1.k) (min (st1.size * 8 - st.i) (W.length - st.i)) := by
    rw [hd, readAmt, hq, gi]
  have hdvsz : (8 : Nat) ∣ st1.size * 8 - st.i := Nat.dvd_sub' ⟨st1.size, by ring⟩ hdi
  have hdvW : (8 : Nat) ∣ W.length - st.i := Nat.dvd_sub' hwd hdi
  have h8a : 8 ≤ st1.size * 8 - st.i := Nat.le_of_dvd (by omega) hdvsz
  have h8b : 8 ≤ W.length - st.i := Nat.le_of_dvd (by omega) hdvW
  have hd8 : 8 ≤ d := by
    rw [hdey]
    exact Nat.le_min.mpr ⟨hfk.1, Nat.le_min.mpr ⟨h8a, h8b⟩⟩
  have hddvd : (8 : Nat) ∣ d := by
    rw [hdey]
    exact dvd_min_of_dvd _ _ _ hfk.2 (dvd_min_of_dvd _ _ _ hdvsz hdvW)
  have hdle1 : d ≤ st1.size * 8 - st.i := by
    rw [hdey]
    exact le_trans (Nat.min_le_right _ _) (Nat.min_le_left _ _)
  have hdle2 : d ≤ W.length - st.i := by
    rw [hdey]
    exact le_trans (Nat.min_le_right _ _) (Nat.min_le_right _ _)
  have hpend1 : st1.s.pending = W.drop st1.i := by rw [gs, gi, hpend]
  have hbuf1 : st1.buf.take st1.i = W.take st1.i := by rw [gi, gtake, htake]
  have hib1 : st1.i ≤ st1.buf.length := by rw [gi, gb]; omega
  have hd1 : st1.i + d ≤ W.length := by rw [gi]; omega
  have hdb1 : st1.i + d ≤ st1.buf.length := by rw [gi, gb]; omega
  obtain ⟨fi, fk, fsize, fblen, fpend, fwr, ftake⟩ :=
    fill_spec W st1 d hpend1 hbuf1 hib1 hd1 hdb1
  set st2 := fill st1 d with hst2
  have hi2 : st2.i = st.i + d := by rw [fi, gi]
  have hi2le : st2.i ≤ W.length := by rw [hi2]; omega
  have hi28 : 8 ≤ st2.i := by omega
  have htake2 : st2.buf.take st2.i = W.take st2.i := by
    rw [hi2, ← gi]
    exact ftake
  have hpend2 : st2.s.pending = W.drop st2.i := by
    rw [hi2, ← gi]
    exact fpend
  have hwr2 : st2.s.written = st.s.written := by rw [fwr, gs]
  have hblen2 : st2.buf.length = st2.size * 8 := by rw [fblen, fsize, gb]
  have hszle : st2.i ≤ st2.size * 8 := by
    rw [hi2, fsize, ← gi]
    omega
  have hdvi2 : (8 : Nat) ∣ st2.i := by rw [hi2]; exact Nat.dvd_add hdi hddvd
  obtain ⟨q, hq2⟩ := id hdvi2
  have hq1 : 1 ≤ q := by omega
  have hwin : (st2.buf.drop (st2.i - 8)).take 8 = chunkAt W (q - 1) := by
    rw [window_eq_of_take_eq st2.buf W st2.i hi28 htake2, chunkAt]
    congr 2
    omega
  have hstep : hireadStep f st = checkStep st2 := rfl
  rcases Nat.lt_or_ge st2.i W.length with hcase | hcase
  · -- the sentinel is not yet at the cursor: one more iteration
    right
    have hne : chunkAt W (q - 1) ≠ DELIMITER_NAN := by
      apply hwmid
      omega
    refine ⟨⟨st2.k + 1, st2.i, st2.size, st2.buf, st2.s⟩, ?_, ?_, hwr2, ?_⟩
    · rw [hstep, checkStep, if_neg (by omega), if_neg (by rw [hwin]; exact hne)]
    · exact ⟨hblen2, by rw [fsize]; exact gs1, hdvi2, hszle, hcase, hpend2, htake2⟩
    · show st.i + 8 ≤ st2.i
      omega
  · -- the cursor has reached the end of the wire: the sentinel matches
    left
    have hiend : st2.i = W.length := by omega
    have hqval : W.length = 8 * q := by omega
    have hqdiv : W.length / 8 = q := by omega
    have hsent : chunkAt W (q - 1) = DELIMITER_NAN := by
      rw [← hqdiv] at *
      exact hwend
    have hvals : st2.buf.take (8 * (st2.i / 8 - 1)) = W.take (W.length - 8) := by
      have h1 : 8 * (st2.i / 8 - 1) = W.length - 8 := by
        rw [hiend, hqval]
        omega
      rw [h1]
      have h2 : st2.buf.take (W.length - 8) = (st2.buf.take st2.i).take (W.length - 8) := by
        rw [List.take_take, Nat.min_eq_left (by omega)]
      rw [h2, htake2, List.take_take, Nat.min_eq_left (by omega)]
    rw [hstep, checkStep, if_neg (by omega), if_pos (by rw [hwin]; exact hsent)]
    rw [hvals]
    have hpe : st2.s.pending = [] := by
      rw [hpend2, hiend, List.drop_length]
    rw [hpe, hwr2]

theorem hireadLoop_master (W : List Nat) (f : Nat → Nat)
    (hw : WireOK W) (hf : SchedOK f) :
    ∀ fuel st, ReadInv W st → W.length ≤ st.i + 8 * fuel →
      hireadLoop f fuel st
        = some (HiReadOut.ok (bytesToF64s (W.take (W.length - 8)))
            ⟨[], st.s.written ++ [10]⟩) := by
  intro fuel
  induction fuel with
  | zero =>
      intro st hinv hfuel
      obtain ⟨-, -, -, -, hiW, -, -⟩ := hinv
      omega
  | succ n ih =>
      intro st hinv hfuel
      rcases hireadStep_spec W f st hw hf hinv with hstep | ⟨st2, hstep, hinv2, hwr, hprog⟩
      · show (match hireadStep f st with
          | Sum.inl out => some out
          | Sum.inr st2 => hireadLoop f n st2) = _
        rw [hstep]
      · show (match hireadStep f st with
          | Sum.inl out => some out
          | Sum.inr st2 => hireadLoop f n st2) = _
        rw [hstep]
        exact (ih st2 hinv2 (by omega)).trans (by rw [hwr])

theorem hireadAux_master (W : List Nat) (f : Nat → Nat) (fuel size0 : Nat) (w0 : List Nat)
    (hw : WireOK W) (hf : SchedOK f) (hs : 1 ≤ size0) (hfuel : W.length ≤ 8 * fuel) :
    hireadAux f fuel size0 ⟨W, w0⟩
      = some (HiReadOut.ok (bytesToF64s (W.take (W.length - 8))) ⟨[], w0 ++ [10]⟩) := by
  have hinv : ReadInv W ⟨0, 0, size0, List.replicate (size0 * 8) 0, ⟨W, w0⟩⟩ := by
    refine ⟨List.length_replicate _ _, hs, ⟨0, rfl⟩, Nat.zero_le _, ?_, rfl, rfl⟩
    show 0 < W.length
    obtain ⟨-, h8, -, -⟩ := hw
    omega
  exact hireadLoop_master W f hw hf fuel _ hinv (show W.length ≤ 0 + 8 * fuel by omega)

/- ------------------------------------------------------------------
   The wire produced by a sender: payload bytes followed by the
   sentinel.  Its aligned chunks are the encodings of the payload
   elements, so it is a well-formed wire whenever no element carries
   the sentinel bit pattern.
   ------------------------------------------------------------------ -/

theorem chunkAt_flatMap (data : List Nat) (rest : List Nat) (j : Nat) (hj : j < data.length) :
    ∃ v ∈ data, chunkAt (data.flatMap toLEBytes ++ rest) j = toLEBytes v := by
  induction data generalizing j with
  | nil => simp at hj
  | cons v t ih =>
      cases j with
      | zero =>
          refine ⟨v, List.mem_cons_self v t, ?_⟩
          show ((toLEBytes v ++ t.flatMap toLEBytes ++ rest).drop 0).take 8 = toLEBytes v
          rw [List.drop_zero, List.append_assoc,
              List.take_append_of_le_length (by rw [length_toLEBytes]),
              List.take_of_length_le (by rw [length_toLEBytes])]
      | succ j =>
          have hj2 : j < t.length := by
            simp only [List.length_cons] at hj
            omega
          obtain ⟨w, hw1, hw2⟩ := ih j hj2
          refine ⟨w, List.mem_cons_of_mem v hw1, ?_⟩
          have he : chunkAt (toLEBytes v ++ t.flatMap toLEBytes ++ rest) (j + 1)
              = chunkAt (t.flatMap toLEBytes ++ rest) j := by
            unfold chunkAt
            rw [List.append_assoc, List.drop_append_eq_append_drop,
                List.drop_eq_nil_of_le (by rw [length_toLEBytes]; omega),
                List.nil_append, length_toLEBytes]
            have harg : 8 * (j + 1) - 8 = 8 * j := by omega
            rw [harg]
          rw [show (v :: t).flatMap toLEBytes ++ rest
              = toLEBytes v ++ t.flatMap toLEBytes ++ rest by
                rw [List.flatMap_cons, List.append_assoc], he, hw2]

theorem wireOK_of_payload (data : List Nat)
    (h64 : ∀ v ∈ data, v < 18446744073709551616)
    (hns : ∀ v ∈ data, v ≠ SENTINEL) :
    WireOK (data.flatMap toLEBytes ++ DELIMITER_NAN) := by
  have hlen : (data.flatMap toLEBytes ++ DELIMITER_NAN).length = 8 * data.length + 8 := by
    rw [List.length_append, length_flatMap_toLEBytes]
    rfl
  refine ⟨⟨data.length + 1, by omega⟩, by omega, ?_, ?_⟩
  · intro j hjlt
    have hj : j < data.length := by omega
    obtain ⟨v, hv, he⟩ := chunkAt_flatMap data DELIMITER_NAN j hj
    rw [he]
    intro hcontra
    exact hns v hv (toLEBytes_eq_delimiter v (h64 v hv) hcontra)
  · have hq : (data.flatMap toLEBytes ++ DELIMITER_NAN).length / 8 - 1 = data.length := by
      omega
    rw [hq]
    unfold chunkAt
    rw [show 8 * data.length = (data.flatMap toLEBytes).length from
          (length_flatMap_toLEBytes data).symm,
        List.drop_left, List.take_of_length_le (by rfl)]

/- The shared decode result: a stream holding exactly one well-formed
   message (payload encodings then the sentinel) is decoded back to the
   payload, the whole message is consumed, and the single
   acknowledgment byte 0x0a is written. -/
theorem hireadAux_decodes (data : List Nat) (f : Nat → Nat) (size0 : Nat) (w0 : List Nat)
    (h64 : ∀ v ∈ data, v < 18446744073709551616)
    (hns : ∀ v ∈ data, v ≠ SENTINEL)
    (hf : SchedOK f) (hs : 1 ≤ size0) :
    hireadAux f (data.length + 1) size0 ⟨data.flatMap toLEBytes ++ DELIMITER_NAN, w0⟩
      = some (HiReadOut.ok data ⟨[], w0 ++ [10]⟩) := by
  have hw := wireOK_of_payload data h64 hns
  have hlen : (data.flatMap toLEBytes ++ DELIMITER_NAN).length = 8 * data.length + 8 := by
    rw [List.length_append, length_flatMap_toLEBytes]
    rfl
  rw [hireadAux_master _ f (data.length + 1) size0 w0 hw hf hs (by omega)]
  congr 2
  rw [show (data.flatMap toLEBytes ++ DELIMITER_NAN).length - 8
        = (data.flatMap toLEBytes).length by rw [length_flatMap_toLEBytes]; omega,
      List.take_left, bytesToF64s_flatMap data h64]

/- ------------------------------------------------------------------
   hiwrite: the loop transmits the slice completely, resuming after
   every short physical write, as long as each physical write accepts
   at least one byte.
   ------------------------------------------------------------------ -/

theorem hiwriteLoop_master (g : Nat → Nat) (hg : ∀ k, 1 ≤ g k) :
    ∀ fuel k i slice s, i ≤ slice.length → slice.length < i + fuel →
      hiwriteLoop g fuel k i slice s = some ⟨s.pending, s.written ++ slice.drop i⟩ := by
  intro fuel
  induction fuel with
  | zero =>
      intro k i slice s hle hlt
      omega
  | succ n ih =>
      intro k i slice s hle hlt
      show (if i + min (g k) (slice.length - i) = slice.length then
              some ⟨s.pending, s.written ++ (slice.drop i).take (min (g k) (slice.length - i))⟩
            else hiwriteLoop g n (k + 1) (i + min (g k) (slice.length - i)) slice
              ⟨s.pending, s.written ++ (slice.drop i).take (min (g k) (slice.length - i))⟩)
          = some ⟨s.pending, s.written ++ slice.drop i⟩
      by_cases hc : i + min (g k) (slice.length - i) = slice.length
      · rw [if_pos hc]
        have hdl : (slice.drop i).length = min (g k) (slice.length - i) := by
          rw [List.length_drop]
          omega
        rw [← hdl, List.take_length]
      · rw [if_neg hc]
        have hgk := hg k
        have hlt2 : i < slice.length := by omega
        have hmin1 : 1 ≤ min (g k) (slice.length - i) := by
          apply Nat.le_min.mpr
          omega
        rw [ih (k + 1) (i + min (g k) (slice.length - i)) slice _ (by omega) (by omega)]
        have hsplit : (slice.drop i).take (min (g k) (slice.length - i))
            ++ slice.drop (i + min (g k) (slice.length - i)) = slice.drop i := by
          have hdd : slice.drop (i + min (g k) (slice.length - i))
              = (slice.drop i).drop (min (g k) (slice.length - i)) := by
            rw [List.drop_drop]
          rw [hdd, List.take_append_drop]
        rw [List.append_assoc, hsplit]

theorem hiwrite_master (g : Nat → Nat) (data : List Nat) (s : HiStream)
    (hg : ∀ k, 1 ≤ g k) :
    hiwrite g (8 * data.length + 1) data s
      = some ⟨s.pending, s.written ++ data.flatMap toLEBytes⟩ := by
  unfold hiwrite
  rw [hiwriteLoop_master g hg (8 * data.length + 1) 0 0 (data.flatMap toLEBytes) s
        (Nat.zero_le _) (by rw [length_flatMap_toLEBytes]; omega)]
  rw [List.drop_zero]

/- Sequential emission of a list of chunks, each by one hiwrite call
   (given enough fuel for that call to complete). -/
def hiwriteChunks (g : Nat → Nat) (chunks : List (List Nat)) (s : HiStream) : Option HiStream :=
  match chunks with
  | [] => some s
  | c :: rest =>
      match hiwrite g (8 * c.length + 1) c s with
      | some s2 => hiwriteChunks g rest s2
      | none => none

theorem hiwriteChunks_master (g : Nat → Nat) (hg : ∀ k, 1 ≤ g k) :
    ∀ chunks s, hiwriteChunks g chunks s
      = some ⟨s.pending, s.written ++ chunks.flatten.flatMap toLEBytes⟩ := by
  intro chunks
  induction chunks with
  | nil =>
      intro s
      show some s = _
      rw [List.flatten_nil, List.flatMap_nil, List.append_nil]
  | cons c rest ih =>
      intro s
      show (match hiwrite g (8 * c.length + 1) c s with
            | some s2 => hiwriteChunks g rest s2
            | none => none) = _
      rw [hiwrite_master g c s hg]
      show hiwriteChunks g rest ⟨s.pending, s.written ++ c.flatMap toLEBytes⟩ = _
      rw [ih]
      show some _ = _
      rw [List.flatten_cons, List.flatMap_append, List.append_assoc]

/- ------------------------------------------------------------------
   End-of-data behaviour of hiread: once the stream is exhausted and
   the last 8 received bytes are not the sentinel, every further
   iteration reads 0 bytes and re-checks the same window, so the loop
   never terminates (hiread has no end-of-data check).
   ------------------------------------------------------------------ -/

theorem grow_s (st : RState) : (grow st).s = st.s := by
  unfold grow
  by_cases hc : st.i = st.size * 8
  · rw [if_pos hc]
  · rw [if_neg hc]

theorem hireadLoop_stuck (f : Nat → Nat) :
    ∀ fuel st, st.s.pending = [] → 8 ≤ st.i → st.i ≤ st.size * 8 → 1 ≤ st.size →
      st.buf.length = st.size * 8 →
      (st.buf.drop (st.i - 8)).take 8 ≠ DELIMITER_NAN →
      hireadLoop f fuel st = none := by
  intro fuel
  induction fuel with
  | zero =>
      intro st _ _ _ _ _ _
      rfl
  | succ n ih =>
      intro st hpe hi8 hile hsz hbl hwin
      obtain ⟨gk, gi, gs, gb, gs1, gilt, gtake⟩ := grow_spec st hbl hsz hile
      set st1 := grow st with hst1
      have hd0 : readAmt f st1 = 0 := by
        rw [readAmt, gs, hpe]
        simp
      have hbuf2 : (fill st1 0).buf = st1.buf := by
        show st1.buf.take st1.i ++ st1.s.pending.take 0 ++ st1.buf.drop (st1.i + 0) = st1.buf
        rw [List.take_zero, List.append_nil, Nat.add_zero, List.take_append_drop]
      have hi2 : (fill st1 0).i = st.i := by
        show st1.i + 0 = st.i
        rw [Nat.add_zero, gi]
      have hpend2 : (fill st1 0).s.pending = [] := by
        show st1.s.pending.drop 0 = []
        rw [List.drop_zero, gs, hpe]
      have hwin1 : (st1.buf.drop (st.i - 8)).take 8 = (st.buf.drop (st.i - 8)).take 8 :=
        window_eq_of_take_eq st1.buf st.buf st.i hi8 gtake
      have hwin2 : ((fill st1 0).buf.drop ((fill st1 0).i - 8)).take 8 ≠ DELIMITER_NAN := by
        rw [hbuf2, hi2, hwin1]
        exact hwin
      have hstep : hireadStep f st = Sum.inr
          ⟨(fill st1 0).k + 1, (fill st1 0).i, (fill st1 0).size,
           (fill st1 0).buf, (fill st1 0).s⟩ := by
        unfold hireadStep
        rw [← hst1, hd0, checkStep, if_neg (by rw [hi2]; omega), if_neg hwin2]
      show (match hireadStep f st with
          | Sum.inl out => some out
          | Sum.inr st2 => hireadLoop f n st2) = none
      rw [hstep]
      apply ih
      · exact hpend2
      · show 8 ≤ (fill st1 0).i
        rw [hi2]
        exact hi8
      · show (fill st1 0).i ≤ st1.size * 8
        rw [hi2]
        omega
      · show 1 ≤ st1.size
        exact gs1
      · show (fill st1 0).buf.length = st1.size * 8
        rw [hbuf2, gb]
      · exact hwin2

/- ------------------------------------------------------------------
   The acknowledgment byte: whenever hiread's loop returns Ok, exactly
   one byte, the newline 0x0a, has been appended to the stream's
   written side.
   ------------------------------------------------------------------ -/

theorem checkStep_ok_written (st2 : RState) (out : List Nat) (s' : HiStream)
    (h : checkStep st2 = Sum.inl (HiReadOut.ok out s')) :
    s'.written = st2.s.written ++ [10] := by
  unfold checkStep at h
  by_cases h1 : st2.i < 8
  · rw [if_pos h1] at h
    simp at h
  · rw [if_neg h1] at h
    by_cases h2 : (st2.buf.drop (st2.i - 8)).take 8 = DELIMITER_NAN
    · rw [if_pos h2] at h
      simp only [Sum.inl.injEq, HiReadOut.ok.injEq] at h
      rw [← h.2]
    · rw [if_neg h2] at h
      simp at h

theorem checkStep_inr_s (st2 st3 : RState) (h : checkStep st2 = Sum.inr st3) :
    st3.s = st2.s := by
  unfold checkStep at h
  by_cases h1 : st2.i < 8
  · rw [if_pos h1] at h
    simp at h
  · rw [if_neg h1] at h
    by_cases h2 : (st2.buf.drop (st2.i - 8)).take 8 = DELIMITER_NAN
    · rw [if_pos h2] at h
      simp at h
    · rw [if_neg h2] at h
      simp only [Sum.inr.injEq] at h
      rw [← h]

theorem hireadLoop_ack (f : Nat → Nat) :
    ∀ fuel st out s', hireadLoop f fuel st = some (HiReadOut.ok out s') →
      s'.written = st.s.written ++ [10] := by
  intro fuel
  induction fuel with
  | zero =>
      intro st out s' h
      cases h
  | succ n ih =>
      intro st out s' h
      have hm : (match hireadStep f st with
          | Sum.inl o => some o
          | Sum.inr st2 => hireadLoop f n st2) = some (HiReadOut.ok out s') := h
      cases hstep : hireadStep f st with
      | inl o =>
          rw [hstep] at hm
          have ho : o = HiReadOut.ok out s' := by
            injection hm
          have hck : checkStep (fill (grow st) (readAmt f (grow st)))
              = Sum.inl (HiReadOut.ok out s') := by
            rw [← ho]
            exact hstep
          have hwr := checkStep_ok_written _ out s' hck
          rw [hwr]
          show (grow st).s.written ++ [10] = st.s.written ++ [10]
          rw [grow_s]
      | inr st2 =>
          rw [hstep] at hm
          have hrec : s'.written = st2.s.written ++ [10] := ih st2 out s' hm
          have hs2 : st2.s = (fill (grow st) (readAmt f (grow st))).s :=
            checkStep_inr_s _ st2 hstep
          rw [hrec, hs2]
          show (grow st).s.written ++ [10] = st.s.written ++ [10]
          rw [grow_s]

/- When every physical write accepts at least the 8 offered bytes, the
   single write in hidelimiter does transmit the whole sentinel. -/
theorem hidelimiter_full_write (a : Nat) (s : HiStream) (ha : 8 ≤ a) :
    hidelimiter a s = (match s.pending with
      | [] => HiDelimOut.eofError
      | _ :: rest => HiDelimOut.ok ⟨rest, s.written ++ DELIMITER_NAN⟩) := by
  unfold hidelimiter
  have hm : min a DELIMITER_NAN.length = 8 := by
    rw [show DELIMITER_NAN.length = 8 from rfl]
    omega
  rw [hm, show DELIMITER_NAN.take 8 = DELIMITER_NAN from rfl]

/-- C2: the spec requires that a stream reaching end-of-data before the
sentinel makes hiread fail with an incomplete-message error instead of
looping forever.  The code has no end-of-data check at all: on the
stream that delivers the 8 zero bytes of one f64 value and then closes,
every read returns 0 bytes and the same non-sentinel window is
re-checked forever, so hiread never returns, whatever the fuel.  This
contradicts the spec's explicit requirement, hence a code bug. -/
theorem hiread_eof_diverges :
    ∀ fuel, hiread (fun _ => 8) fuel ⟨List.replicate 8 0, []⟩ = none := by
  intro fuel
  cases fuel with
  | zero => rfl
  | succ n =>
      have hgrow : grow ⟨0, 0, DEFAULT_SIZE, List.replicate (DEFAULT_SIZE * 8) 0,
            ⟨List.replicate 8 0, []⟩⟩
          = ⟨0, 0, DEFAULT_SIZE, List.replicate (DEFAULT_SIZE * 8) 0,
            ⟨List.replicate 8 0, []⟩⟩ := by
        unfold grow
        rw [if_neg (by decide)]
      have hd : readAmt (fun _ => 8) ⟨0, 0, DEFAULT_SIZE,
          List.replicate (DEFAULT_SIZE * 8) 0, ⟨List.replicate 8 0, []⟩⟩ = 8 := by
        decide
      have hwin : ((fill ⟨0, 0, DEFAULT_SIZE, List.replicate (DEFAULT_SIZE * 8) 0,
            ⟨List.replicate 8 0, []⟩⟩ 8).buf.drop
              ((fill ⟨0, 0, DEFAULT_SIZE, List.replicate (DEFAULT_SIZE * 8) 0,
            ⟨List.replicate 8 0, []⟩⟩ 8).i - 8)).take 8 = List.replicate 8 0 := by
        decide
      have hstep : hireadStep (fun _ => 8) ⟨0, 0, DEFAULT_SIZE,
            List.replicate (DEFAULT_SIZE * 8) 0, ⟨List.replicate 8 0, []⟩⟩
          = Sum.inr ⟨(fill ⟨0, 0, DEFAULT_SIZE, List.replicate (DEFAULT_SIZE * 8) 0,
              ⟨List.replicate 8 0, []⟩⟩ 8).k + 1,
            (fill ⟨0, 0, DEFAULT_SIZE, List.replicate (DEFAULT_SIZE * 8) 0,
              ⟨List.replicate 8 0, []⟩⟩ 8).i,
            (fill ⟨0, 0, DEFAULT_SIZE, List.replicate (DEFAULT_SIZE * 8) 0,
              ⟨List.replicate 8 0, []⟩⟩ 8).size,
            (fill ⟨0, 0, DEFAULT_SIZE, List.replicate (DEFAULT_SIZE * 8) 0,
              ⟨List.replicate 8 0, []⟩⟩ 8).buf,
            (fill ⟨0, 0, DEFAULT_SIZE, List.replicate (DEFAULT_SIZE * 8) 0,
              ⟨List.replicate 8 0, []⟩⟩ 8).s⟩ := by
        unfold hireadStep
        rw [hgrow, hd, checkStep, if_neg (by decide), if_neg (by rw [hwin]; decide)]
      show (match hireadStep (fun _ => 8) ⟨0, 0, DEFAULT_SIZE,
          List.replicate (DEFAULT_SIZE * 8) 0, ⟨List.replicate 8 0, []⟩⟩ with
        | Sum.inl out => some out
        | Sum.inr st2 => hireadLoop (fun _ => 8) n st2) = none
      rw [hstep]
      apply hireadLoop_stuck
      · decide
      · decide
      · decide
      · decide
      · show ((List.replicate (DEFAULT_SIZE * 8) 0).take 0 ++ (List.replicate 8 0).take 8
            ++ (List.replicate (DEFAULT_SIZE * 8) 0).drop (0 + 8)).length = DEFAULT_SIZE * 8
        rw [List.length_append, List.length_append, List.length_take, List.length_take,
            List.length_drop, List.length_replicate, List.length_replicate]
        simp only [DEFAULT_SIZE]
        omega
      · rw [hwin]
        decide

/- ==================================================================
   Claim theorems
   ================================================================== -/

/-- C1: for every finite array of f64 bit patterns none of which is the
sentinel pattern 0x7ff800100400a05b (zeros, subnormals, infinities and
other NaN patterns included), emitting it with hiwrite, closing with
hidelimiter on one end and framing with a single hiread on the other
yields exactly the original array, bit for bit.  Physical writes may be
arbitrarily short; the receiver's physical reads may be chunked
arbitrarily as long as every read delivers whole 8-byte words (the
sub-word case hits the underflow panic recorded at claim C4).  The
sender's stream is pre-loaded with the one acknowledgment byte that, as
the third conjunct shows, the receiver writes at the end of hiread. -/
theorem hi_roundtrip (data : List Nat) (g f : Nat → Nat) (a : Nat)
    (h64 : ∀ v ∈ data, v < 18446744073709551616)
    (hns : ∀ v ∈ data, v ≠ SENTINEL)
    (hg : ∀ k, 1 ≤ g k) (ha : 8 ≤ a) (hf : SchedOK f) :
    hiwrite g (8 * data.length + 1) data ⟨[10], []⟩
        = some ⟨[10], data.flatMap toLEBytes⟩ ∧
    hidelimiter a ⟨[10], data.flatMap toLEBytes⟩
        = HiDelimOut.ok ⟨[], data.flatMap toLEBytes ++ DELIMITER_NAN⟩ ∧
    hiread f (data.length + 1) ⟨data.flatMap toLEBytes ++ DELIMITER_NAN, []⟩
        = some (HiReadOut.ok data ⟨[], [10]⟩) := by
  refine ⟨?_, ?_, ?_⟩
  · exact (hiwrite_master g data ⟨[10], []⟩ hg).trans (by rfl)
  · exact (hidelimiter_full_write a ⟨[10], data.flatMap toLEBytes⟩ ha).trans (by rfl)
  · exact hireadAux_decodes data f DEFAULT_SIZE [] h64 hns hf (by norm_num [DEFAULT_SIZE])

/-- Witness for C1 at the one-element array [1] (the bit pattern of the
smallest positive subnormal double). -/
theorem hi_roundtrip_w :
    (∀ v ∈ [(1 : Nat)], v < 18446744073709551616) ∧
    (∀ v ∈ [(1 : Nat)], v ≠ SENTINEL) ∧
    (∀ k : Nat, 1 ≤ (fun _ => (8 : Nat)) k) ∧ (8 : Nat) ≤ 8 ∧ SchedOK (fun _ => 8) ∧
    (hiwrite (fun _ => 8) (8 * [(1 : Nat)].length + 1) [(1 : Nat)] ⟨[10], []⟩
        = some ⟨[10], [(1 : Nat)].flatMap toLEBytes⟩ ∧
      hidelimiter 8 ⟨[10], [(1 : Nat)].flatMap toLEBytes⟩
        = HiDelimOut.ok ⟨[], [(1 : Nat)].flatMap toLEBytes ++ DELIMITER_NAN⟩ ∧
      hiread (fun _ => 8) ([(1 : Nat)].length + 1)
          ⟨[(1 : Nat)].flatMap toLEBytes ++ DELIMITER_NAN, []⟩
        = some (HiReadOut.ok [(1 : Nat)] ⟨[], [10]⟩)) :=
  ⟨by decide, by decide, fun _ => (by decide : (1 : Nat) ≤ 8), by decide,
   fun _ => ⟨(by decide : (8 : Nat) ≤ 8), ⟨1, rfl⟩⟩,
   hi_roundtrip [(1 : Nat)] (fun _ => 8) (fun _ => 8) 8 (by decide) (by decide)
     (fun _ => (by decide : (1 : Nat) ≤ 8)) (by decide) (fun _ => ⟨(by decide : (8 : Nat) ≤ 8), ⟨1, rfl⟩⟩)⟩

/-- C3 counterexample: the claim says hidelimiter tolerates short
physical writes by resuming until all 8 sentinel bytes are written.
The code issues a single write whose byte count is ignored: on a stream
that accepts only 4 bytes, hidelimiter returns Ok having transmitted
only the first 4 sentinel bytes, not the full 8-byte sentinel. -/
theorem hidelimiter_short_write_cex :
    hidelimiter 4 ⟨[10], []⟩ = HiDelimOut.ok ⟨[], [0x5b, 0xa0, 0x00, 0x04]⟩ ∧
    [(0x5b : Nat), 0xa0, 0x00, 0x04] ≠ DELIMITER_NAN :=
  ⟨by decide, by decide⟩

/-- C3 amended: hidelimiter issues one physical write of the 8 sentinel
bytes (transmitting them all only when the stream accepts at least 8
bytes in that single write - a short write is not resumed), flushes,
then blocks reading exactly one acknowledgment byte; if the stream is
already at end-of-data the error is returned to the caller rather than
ignored. -/
theorem hidelimiter_contract (a : Nat) (s : HiStream) (ha : 8 ≤ a) :
    (s.pending = [] → hidelimiter a s = HiDelimOut.eofError) ∧
    (∀ b rest, s.pending = b :: rest →
      hidelimiter a s = HiDelimOut.ok ⟨rest, s.written ++ DELIMITER_NAN⟩) := by
  have hfull := hidelimiter_full_write a s ha
  constructor
  · intro hp
    rw [hfull, hp]
  · intro b rest hp
    rw [hfull, hp]

/-- Witness for the amended C3: a full 8-byte write with one pending
acknowledgment byte. -/
theorem hidelimiter_contract_w :
    (8 : Nat) ≤ 8 ∧ hidelimiter 8 ⟨[7], [1]⟩ = HiDelimOut.ok ⟨[], [1] ++ DELIMITER_NAN⟩ :=
  ⟨by decide, (hidelimiter_contract 8 ⟨[7], [1]⟩ (by decide)).2 7 [] rfl⟩

/-- C4: on every stream whose first physical read delivers fewer than 8
bytes (because the schedule offers fewer than 8, or fewer than 8 bytes
exist before end-of-data), the byte cursor is below 8 at the first
sentinel comparison, buf_view[i - 8..i] underflows, and hiread panics
instead of returning a value or an error. -/
theorem hiread_short_first_read_panics (f : Nat → Nat) (fuel : Nat) (s : HiStream)
    (hfuel : 1 ≤ fuel) (hshort : f 0 < 8 ∨ s.pending.length < 8) :
    hiread f fuel s = some HiReadOut.panic := by
  obtain ⟨n, rfl⟩ : ∃ n, fuel = n + 1 := ⟨fuel - 1, by omega⟩
  have hgrow : grow ⟨0, 0, DEFAULT_SIZE, List.replicate (DEFAULT_SIZE * 8) 0, s⟩
      = ⟨0, 0, DEFAULT_SIZE, List.replicate (DEFAULT_SIZE * 8) 0, s⟩ := by
    unfold grow
    rw [if_neg (by show ¬(0 = DEFAULT_SIZE * 8); decide)]
  have hd : readAmt f ⟨0, 0, DEFAULT_SIZE, List.replicate (DEFAULT_SIZE * 8) 0, s⟩ < 8 := by
    show min (f 0) (min (DEFAULT_SIZE * 8 - 0) s.pending.length) < 8
    omega
  have hstep : hireadStep f ⟨0, 0, DEFAULT_SIZE, List.replicate (DEFAULT_SIZE * 8) 0, s⟩
      = Sum.inl HiReadOut.panic := by
    unfold hireadStep
    rw [hgrow, checkStep,
        if_pos (show (fill ⟨0, 0, DEFAULT_SIZE, List.replicate (DEFAULT_SIZE * 8) 0, s⟩
            (readAmt f ⟨0, 0, DEFAULT_SIZE, List.replicate (DEFAULT_SIZE * 8) 0, s⟩)).i < 8 by
          show 0 + readAmt f ⟨0, 0, DEFAULT_SIZE, List.replicate (DEFAULT_SIZE * 8) 0, s⟩ < 8
          omega)]
  show (match hireadStep f ⟨0, 0, DEFAULT_SIZE, List.replicate (DEFAULT_SIZE * 8) 0, s⟩ with
    | Sum.inl out => some out
    | Sum.inr st2 => hireadLoop f n st2) = some HiReadOut.panic
  rw [hstep]

/-- Witness for C4: the first read delivers 3 bytes. -/
theorem hiread_short_first_read_panics_w :
    (1 : Nat) ≤ 1 ∧ ((fun _ => (3 : Nat)) 0 < 8 ∨ (HiStream.mk [0, 0, 0] []).pending.length < 8) ∧
    hiread (fun _ => 3) 1 ⟨[0, 0, 0], []⟩ = some HiReadOut.panic :=
  ⟨by decide, Or.inl (by decide),
   hiread_short_first_read_panics (fun _ => 3) 1 ⟨[0, 0, 0], []⟩ (by decide) (Or.inl (by decide))⟩

/-- C5: splitting an array into contiguous sub-slices and calling
hiwrite once per sub-slice in order puts exactly the same byte sequence
on the stream as a single hiwrite of the whole array, so the subsequent
hidelimiter plus peer hiread decode identically in both cases. -/
theorem hiwrite_chunked_equiv (g : Nat → Nat) (chunks : List (List Nat)) (s : HiStream)
    (hg : ∀ k, 1 ≤ g k) (hne : ∀ c ∈ chunks, c ≠ []) :
    hiwriteChunks g chunks s
        = some ⟨s.pending, s.written ++ chunks.flatten.flatMap toLEBytes⟩ ∧
    hiwriteChunks g chunks s = hiwrite g (8 * chunks.flatten.length + 1) chunks.flatten s := by
  refine ⟨hiwriteChunks_master g hg chunks s, ?_⟩
  rw [hiwriteChunks_master g hg chunks s, hiwrite_master g chunks.flatten s hg]

/-- Witness for C5: the array [1, 2, 3] split as [1] then [2, 3], with
every physical write accepting a single byte. -/
theorem hiwrite_chunked_equiv_w :
    (∀ k : Nat, 1 ≤ (fun _ => (1 : Nat)) k) ∧ (∀ c ∈ [[(1 : Nat)], [2, 3]], c ≠ []) ∧
    hiwriteChunks (fun _ => 1) [[(1 : Nat)], [2, 3]] ⟨[], []⟩
      = hiwrite (fun _ => 1) (8 * ([[(1 : Nat)], [2, 3]].flatten).length + 1)
          [[(1 : Nat)], [2, 3]].flatten ⟨[], []⟩ :=
  ⟨fun _ => (by decide : (1 : Nat) ≤ 1), by decide,
   (hiwrite_chunked_equiv (fun _ => 1) [[(1 : Nat)], [2, 3]] ⟨[], []⟩
      (fun _ => (by decide : (1 : Nat) ≤ 1)) (by decide)).2⟩

/-- C6: hiwrite returns only after transmitting exactly 8 x n bytes,
the raw little-endian representation of the n elements in order, with
no padding and no sentinel, resuming after every short physical write
(any acceptance schedule that accepts at least one byte per write). -/
theorem hiwrite_contract (g : Nat → Nat) (data : List Nat) (s : HiStream)
    (hg : ∀ k, 1 ≤ g k) :
    hiwrite g (8 * data.length + 1) data s
        = some ⟨s.pending, s.written ++ data.flatMap toLEBytes⟩ ∧
    (data.flatMap toLEBytes).length = 8 * data.length :=
  ⟨hiwrite_master g data s hg, length_flatMap_toLEBytes data⟩

/-- Witness for C6: one element transmitted in 3-byte physical writes. -/
theorem hiwrite_contract_w :
    (∀ k : Nat, 1 ≤ (fun _ => (3 : Nat)) k) ∧
    hiwrite (fun _ => 3) (8 * [(5 : Nat)].length + 1) [(5 : Nat)] ⟨[9], [2]⟩
      = some ⟨(HiStream.mk [9] [2]).pending, (HiStream.mk [9] [2]).written
          ++ [(5 : Nat)].flatMap toLEBytes⟩ :=
  ⟨fun _ => (by decide : (1 : Nat) ≤ 3),
   (hiwrite_contract (fun _ => 3) [(5 : Nat)] ⟨[9], [2]⟩
      (fun _ => (by decide : (1 : Nat) ≤ 3))).1⟩

/-- C7 counterexample: the claim quantifies over every stream whose
next 8 bytes are exactly the sentinel word.  On a stream that holds the
sentinel and, already buffered behind it, a second message with payload
[7], a single 24-byte read (an admissible whole-word delivery) consumes
everything: hiread returns the two-element array [SENTINEL, 7], not the
empty array, misframing the zero-length message. -/
theorem hiread_empty_message_cex :
    hiread (fun _ => 24) 1 ⟨DELIMITER_NAN ++ (toLEBytes 7 ++ DELIMITER_NAN), []⟩
        = some (HiReadOut.ok [SENTINEL, 7] ⟨[], [10]⟩) ∧
    [SENTINEL, 7] ≠ ([] : List Nat) :=
  ⟨by decide, by decide⟩

/-- C7 amended: a stream whose pending data is exactly the 8 sentinel
bytes - a zero-length message with nothing further buffered behind it -
decodes to the empty array, and the acknowledgment byte is still
written before returning; if bytes of a following message are already
buffered, a single large read may consume and misframe them (the
read-ahead recorded with claim C9). -/
theorem hiread_empty_message (f : Nat → Nat) (hf : SchedOK f) :
    hiread f 1 ⟨DELIMITER_NAN, []⟩ = some (HiReadOut.ok [] ⟨[], [10]⟩) := by
  have h := hireadAux_decodes [] f DEFAULT_SIZE [] (by simp) (by simp) hf
    (by norm_num [DEFAULT_SIZE])
  rw [List.flatMap_nil, List.nil_append] at h
  exact h

/-- Witness for C7. -/
theorem hiread_empty_message_w :
    SchedOK (fun _ => 8) ∧
    hiread (fun _ => 8) 1 ⟨DELIMITER_NAN, []⟩ = some (HiReadOut.ok [] ⟨[], [10]⟩) :=
  ⟨fun _ => ⟨(by decide : (8 : Nat) ≤ 8), ⟨1, rfl⟩⟩,
   hiread_empty_message (fun _ => 8) (fun _ => ⟨(by decide : (8 : Nat) ≤ 8), ⟨1, rfl⟩⟩)⟩

/-- C8: the buffer capacity in bytes is size * 8 throughout (a multiple
of 8 by construction); doubling preserves the received bytes, so a
message longer than the initial capacity (first conjunct, with
size0 * 8 smaller than the message) still decodes correctly, and the
decoded result is independent of the initial capacity and of the read
schedule, hence of how many doublings occurred (second conjunct). -/
theorem hiread_buffer_growth (data : List Nat) (f f2 : Nat → Nat) (size0 size02 : Nat)
    (h64 : ∀ v ∈ data, v < 18446744073709551616)
    (hns : ∀ v ∈ data, v ≠ SENTINEL)
    (hf : SchedOK f) (hf2 : SchedOK f2) (hs : 1 ≤ size0) (hs2 : 1 ≤ size02)
    (hsmall : size0 * 8 < 8 * data.length + 8) :
    hireadAux f (data.length + 1) size0 ⟨data.flatMap toLEBytes ++ DELIMITER_NAN, []⟩
        = some (HiReadOut.ok data ⟨[], [10]⟩) ∧
    hireadAux f2 (data.length + 1) size02 ⟨data.flatMap toLEBytes ++ DELIMITER_NAN, []⟩
        = hireadAux f (data.length + 1) size0 ⟨data.flatMap toLEBytes ++ DELIMITER_NAN, []⟩ := by
  have h1 := hireadAux_decodes data f size0 [] h64 hns hf hs
  have h2 := hireadAux_decodes data f2 size02 [] h64 hns hf2 hs2
  rw [List.nil_append] at h1 h2
  exact ⟨h1, h2.trans h1.symm⟩

/-- Witness for C8: a 24-byte message against an 8-byte initial buffer
(two doublings), compared with a 40-byte initial buffer. -/
theorem hiread_buffer_growth_w :
    (∀ v ∈ [(0 : Nat), 0], v < 18446744073709551616) ∧
    (∀ v ∈ [(0 : Nat), 0], v ≠ SENTINEL) ∧
    SchedOK (fun _ => 8) ∧ SchedOK (fun _ => 16) ∧
    (1 : Nat) ≤ 1 ∧ (1 : Nat) ≤ 5 ∧ 1 * 8 < 8 * [(0 : Nat), 0].length + 8 ∧
    hireadAux (fun _ => 8) ([(0 : Nat), 0].length + 1) 1
        ⟨[(0 : Nat), 0].flatMap toLEBytes ++ DELIMITER_NAN, []⟩
      = some (HiReadOut.ok [(0 : Nat), 0] ⟨[], [10]⟩) :=
  ⟨by decide, by decide, fun _ => ⟨(by decide : (8 : Nat) ≤ 8), ⟨1, rfl⟩⟩,
   fun _ => ⟨(by decide : (8 : Nat) ≤ 16), ⟨2, rfl⟩⟩, by decide, by decide, by decide,
   (hiread_buffer_growth [(0 : Nat), 0] (fun _ => 8) (fun _ => 16) 1 5 (by decide) (by decide)
      (fun _ => ⟨(by decide : (8 : Nat) ≤ 8), ⟨1, rfl⟩⟩)
      (fun _ => ⟨(by decide : (8 : Nat) ≤ 16), ⟨2, rfl⟩⟩)
      (by decide) (by decide) (by decide)).1⟩

/-- C9 counterexample: the claim says hiread consumes no bytes beyond
the sentinel even when bytes of a following message are available.  A
physical read requests the whole free buffer tail, so on a stream that
already holds an empty message (the sentinel) followed by a second
sentinel, one 16-byte read consumes both: hiread returns with the
stream fully drained (nothing left of the second message) and decodes
the first message's terminator plus the second sentinel's bytes as the
one-element array [SENTINEL] instead of the empty array. -/
theorem hiread_reads_past_sentinel_cex :
    hiread (fun _ => 16) 1 ⟨DELIMITER_NAN ++ DELIMITER_NAN, []⟩
        = some (HiReadOut.ok [SENTINEL] ⟨[], [10]⟩) ∧
    (HiStream.mk ([] : List Nat) [10]).pending ≠ DELIMITER_NAN ∧
    [SENTINEL] ≠ ([] : List Nat) :=
  ⟨by decide, by decide, by decide⟩

/-- C9 amended: hiread's physical reads request the entire free buffer
tail, so bytes beyond the sentinel that are already available may be
consumed and misframed; when the stream holds exactly one message (the
handshake of the protocol guarantees the peer sends nothing further
before acknowledgment), hiread consumes exactly the payload plus the 8
sentinel bytes - the whole stream, 8 x n + 8 bytes - and no more. -/
theorem hiread_consumes_one_message (data : List Nat) (f : Nat → Nat) (size0 : Nat)
    (w0 : List Nat)
    (h64 : ∀ v ∈ data, v < 18446744073709551616)
    (hns : ∀ v ∈ data, v ≠ SENTINEL)
    (hf : SchedOK f) (hs : 1 ≤ size0) :
    hireadAux f (data.length + 1) size0 ⟨data.flatMap toLEBytes ++ DELIMITER_NAN, w0⟩
        = some (HiReadOut.ok data ⟨[], w0 ++ [10]⟩) ∧
    (data.flatMap toLEBytes ++ DELIMITER_NAN).length = 8 * data.length + 8 := by
  refine ⟨hireadAux_decodes data f size0 w0 h64 hns hf hs, ?_⟩
  rw [List.length_append, length_flatMap_toLEBytes]
  rfl

/-- Witness for the amended C9. -/
theorem hiread_consumes_one_message_w :
    (∀ v ∈ [(2 : Nat)], v < 18446744073709551616) ∧
    (∀ v ∈ [(2 : Nat)], v ≠ SENTINEL) ∧
    SchedOK (fun _ => 8) ∧ (1 : Nat) ≤ 3 ∧
    hireadAux (fun _ => 8) ([(2 : Nat)].length + 1) 3
        ⟨[(2 : Nat)].flatMap toLEBytes ++ DELIMITER_NAN, [5]⟩
      = some (HiReadOut.ok [(2 : Nat)] ⟨[], [5] ++ [10]⟩) :=
  ⟨by decide, by decide, fun _ => ⟨(by decide : (8 : Nat) ≤ 8), ⟨1, rfl⟩⟩, by decide,
   (hiread_consumes_one_message [(2 : Nat)] (fun _ => 8) 3 [5] (by decide) (by decide)
      (fun _ => ⟨(by decide : (8 : Nat) ≤ 8), ⟨1, rfl⟩⟩) (by decide)).1⟩

/-- C10: hiread always begins by allocating a buffer of exactly
DEFAULT_SIZE = 100,000,000 f64 elements, that is 800,000,000 bytes,
whatever the stream holds (third conjunct: the run is literally the
loop started on that buffer); the constant is fixed and not a parameter
of hiread; and whenever hiread returns Ok, the acknowledgment it has
written is exactly one byte, the newline 0x0a (first conjunct). -/
theorem hiread_default_capacity_and_ack (f : Nat → Nat) (fuel : Nat) (s : HiStream)
    (out : List Nat) (s2 : HiStream)
    (h : hiread f fuel s = some (HiReadOut.ok out s2)) :
    s2.written = s.written ++ [10] ∧ DEFAULT_SIZE = 100000000 ∧
    hiread f fuel s
      = hireadLoop f fuel ⟨0, 0, 100000000, List.replicate 800000000 0, s⟩ := by
  refine ⟨?_, rfl, rfl⟩
  exact hireadLoop_ack f fuel ⟨0, 0, DEFAULT_SIZE, List.replicate (DEFAULT_SIZE * 8) 0, s⟩
    out s2 h

/-- Witness for C10, on the empty message. -/
theorem hiread_default_capacity_and_ack_w :
    hiread (fun _ => 8) 1 ⟨DELIMITER_NAN, []⟩ = some (HiReadOut.ok [] ⟨[], [10]⟩) ∧
    (HiStream.mk ([] : List Nat) [10]).written
        = (HiStream.mk DELIMITER_NAN ([] : List Nat)).written ++ [10] ∧
    DEFAULT_SIZE = 100000000 :=
  ⟨by decide,
   (hiread_default_capacity_and_ack (fun _ => 8) 1 ⟨DELIMITER_NAN, []⟩ [] ⟨[], [10]⟩
      (by decide)).1,
   (hiread_default_capacity_and_ack (fun _ => 8) 1 ⟨DELIMITER_NAN, []⟩ [] ⟨[], [10]⟩
      (by decide)).2.1⟩
